import Mathlib

/-!
# Verification of the Minecraft registry/tag compiler

Shallow embedding of `src/main.rs` (Chaotic-loom/MinecraftRegistryExtractor):
the varint / length-prefixed-string binary primitives, the registry compiler
(`compile_registries`) and the tag compiler (`compile_tags`), together with
proofs of the specification's claims about them.

Modelling conventions:
* Byte buffers (`Vec<u8>`) are `List Nat`, each element `< 256`.
* `i32` values are `Int` where sign matters (the varint loop), and `Nat`
  where the source only ever produces non-negative values (entry IDs and
  counts, which arise as list indices and lengths).
* Filesystem paths are lists of components; JSON parsing of a tag file is
  represented by its result (`Option (List String)`, `none` = serde failure).
-/

/-! ## Varint encoder (`write_varint`, src/main.rs lines 194-203)

The Rust loop is
```
loop {
    let mut temp = (value & 0x7F) as u8;
    value >>= 7;
    if value != 0 { temp |= 0x80; }
    buf.push(temp);
    if value == 0 { break; }
}
```
For a non-negative `i32`, `value & 0x7F` is `value % 128` and the arithmetic
shift `value >>= 7` is `value / 128`.  We first give the total function on
`Nat` (structural recursion over an explicit fuel so that the kernel can
evaluate it; `value + 1` units of fuel always suffice), and below a fuelled
`Int` version `write_varint_i32` capturing the exact `i32` semantics of the
loop, including its non-termination on negative inputs. -/

def write_varint_fuel : Nat → Nat → List Nat
  | 0, _ => []
  | fuel + 1, value =>
    if value / 128 = 0 then [value % 128]
    else (value % 128 + 128) :: write_varint_fuel fuel (value / 128)

def write_varint (value : Nat) : List Nat :=
  write_varint_fuel (value + 1) value

/-- The varint decoder, as the specification defines it: 7 payload bits per
byte, low-order first, terminating on the first byte with high bit clear. -/
def decode_varint : List Nat → Option Nat
  | [] => none
  | b :: rest =>
    if b < 128 then some b
    else
      match decode_varint rest with
      | some v => some (b % 128 + 128 * v)
      | none => none

/-- `write_string` (src/main.rs lines 205-210): varint byte length of the
UTF-8 encoding, then the raw UTF-8 bytes. -/
def write_string (s : String) : List Nat :=
  write_varint s.utf8ByteSize ++ s.toUTF8.toList.map (fun b => b.toNat)

/-- The `i32` semantics of the `write_varint` loop: `value & 0x7F` is
`value.emod 128` (the low 7 bits of the two's-complement representation) and
the arithmetic right shift `value >>= 7` is flooring division `Int.fdiv value
128`.  `fuel` bounds the number of loop iterations; `none` means the loop has
not terminated within `fuel` iterations. -/
def write_varint_i32 : Nat → Int → Option (List Nat)
  | 0, _ => none
  | fuel + 1, value =>
    let temp := (value % 128).toNat
    let value' := Int.fdiv value 128
    if value' = 0 then some [temp]
    else
      match write_varint_i32 fuel value' with
      | some rest => some ((temp + 128) :: rest)
      | none => none

theorem write_varint_fuel_eq {f₁ f₂ v : Nat} (h₁ : v < f₁) (h₂ : v < f₂) :
    write_varint_fuel f₁ v = write_varint_fuel f₂ v := by
  induction f₁ generalizing f₂ v with
  | zero => omega
  | succ f₁ ih =>
    obtain ⟨f₂, rfl⟩ : ∃ g, f₂ = g + 1 := ⟨f₂ - 1, by omega⟩
    show write_varint_fuel (f₁ + 1) v = write_varint_fuel (f₂ + 1) v
    simp only [write_varint_fuel]
    split
    · rfl
    · rename_i hne
      have hlt : v / 128 < v := Nat.div_lt_self (by omega) (by omega)
      congr 1
      exact ih (by omega) (by omega)

theorem write_varint_eq (v : Nat) :
    write_varint v =
      if v / 128 = 0 then [v % 128]
      else (v % 128 + 128) :: write_varint (v / 128) := by
  show write_varint_fuel (v + 1) v = _
  simp only [write_varint_fuel]
  split
  · rfl
  · rename_i hne
    have hlt : v / 128 < v := Nat.div_lt_self (by omega) (by omega)
    rw [@write_varint_fuel_eq v (v / 128 + 1) (v / 128) (by omega) (by omega)]
    rfl

theorem decode_write_varint (v : Nat) : decode_varint (write_varint v) = some v := by
  induction v using Nat.strong_induction_on with
  | _ v ih =>
    rw [write_varint_eq]
    by_cases h : v / 128 = 0
    · have hv : v < 128 := by omega
      simp [h, decode_varint, Nat.mod_eq_of_lt hv, hv]
    · have hlt : v / 128 < v := Nat.div_lt_self (by omega) (by omega)
      have hb : ¬ (v % 128 + 128 < 128) := by omega
      simp only [h, if_false, decode_varint, hb, ih (v / 128) hlt]
      have : (v % 128 + 128) % 128 = v % 128 := by omega
      rw [this, Nat.mod_add_div]

theorem size_div_128 {v : Nat} (hv : 128 ≤ v) :
    Nat.size (v / 128) = Nat.size v - 7 := by
  have key : ∀ k : Nat, Nat.size (v / 128) ≤ k ↔ Nat.size v ≤ k + 7 := by
    intro k
    rw [Nat.size_le, Nat.size_le, Nat.div_lt_iff_lt_mul (by omega : 0 < 128)]
    have : 2 ^ k * 128 = 2 ^ (k + 7) := by
      rw [Nat.pow_add]
    rw [this]
  have hsz : 8 ≤ Nat.size v := by
    have : 7 < Nat.size v := Nat.lt_size.mpr (by simpa using hv)
    omega
  refine Nat.le_antisymm ?_ ?_
  · exact (key (Nat.size v - 7)).mpr (by omega)
  · have := (key (Nat.size (v / 128))).mp le_rfl
    omega

theorem write_varint_length (v : Nat) :
    (write_varint v).length = max 1 ((Nat.size v + 6) / 7) := by
  induction v using Nat.strong_induction_on with
  | _ v ih =>
    rw [write_varint_eq]
    by_cases h : v / 128 = 0
    · have hv : v < 128 := by omega
      simp only [h, if_true, List.length_cons, List.length_nil]
      rcases Nat.eq_zero_or_pos v with rfl | hpos
      · simp [Nat.size_zero]
      · have h1 : 1 ≤ Nat.size v := Nat.size_pos.mpr hpos
        have h7 : Nat.size v ≤ 7 := Nat.size_le.mpr (by omega)
        have : (Nat.size v + 6) / 7 = 1 := by
          have : 7 ≤ Nat.size v + 6 ∧ Nat.size v + 6 < 14 := by omega
          omega
        omega
    · have hv : 128 ≤ v := by
        by_contra hc
        exact h (Nat.div_eq_of_lt (by omega))
      have hlt : v / 128 < v := Nat.div_lt_self (by omega) (by omega)
      have hsz : 8 ≤ Nat.size v := by
        have : 7 < Nat.size v := Nat.lt_size.mpr (by simpa using hv)
        omega
      simp only [h, if_false, List.length_cons, ih (v / 128) hlt, size_div_128 hv]
      omega

theorem write_varint_le_five {v : Nat} (hv : v < 2 ^ 31) :
    (write_varint v).length ≤ 5 := by
  rw [write_varint_length]
  have hs : Nat.size v ≤ 31 := Nat.size_le.mpr (by omega)
  have : (Nat.size v + 6) / 7 ≤ (31 + 6) / 7 := Nat.div_le_div_right (by omega)
  omega

theorem write_varint_i32_negSucc (fuel m : Nat) :
    write_varint_i32 fuel (Int.negSucc m) = none := by
  induction fuel generalizing m with
  | zero => rfl
  | succ fuel ih =>
    have hdiv : Int.fdiv (Int.negSucc m) 128 = Int.negSucc (m / 128) := rfl
    simp only [write_varint_i32, hdiv]
    rw [if_neg (by exact fun h => Int.negSucc_ne_zero _ h)]
    rw [ih]

theorem write_varint_i32_succ (fuel : Nat) (value : Int) :
    write_varint_i32 (fuel + 1) value =
      if Int.fdiv value 128 = 0 then some [(value % 128).toNat]
      else
        match write_varint_i32 fuel (Int.fdiv value 128) with
        | some rest => some (((value % 128).toNat + 128) :: rest)
        | none => none := rfl

theorem fdiv_natCast (n : Nat) : Int.fdiv (n : Int) 128 = ((n / 128 : Nat) : Int) := by
  cases n with
  | zero => rfl
  | succ m => rfl

theorem write_varint_i32_ofNat (fuel n : Nat) (h : n < 128 ^ (fuel + 1)) :
    write_varint_i32 (fuel + 1) (n : Int) = some (write_varint n) := by
  induction fuel generalizing n with
  | zero =>
    have hn : n < 128 := by simpa using h
    have hz : n / 128 = 0 := Nat.div_eq_of_lt hn
    have hmod : ((n : Int) % 128).toNat = n % 128 := by omega
    rw [write_varint_i32_succ, fdiv_natCast,
      if_pos (show ((n / 128 : Nat) : Int) = 0 by rw [hz]; rfl), hmod,
      write_varint_eq, if_pos hz, Nat.mod_eq_of_lt hn]
  | succ fuel ih =>
    have hmod : ((n : Int) % 128).toNat = n % 128 := by omega
    by_cases hz : n / 128 = 0
    · have hn : n < 128 := by omega
      rw [write_varint_i32_succ, fdiv_natCast,
        if_pos (show ((n / 128 : Nat) : Int) = 0 by rw [hz]; rfl), hmod,
        write_varint_eq, if_pos hz, Nat.mod_eq_of_lt hn]
    · have hcast : ¬ ((n / 128 : Nat) : Int) = 0 := by exact_mod_cast hz
      have hrec : n / 128 < 128 ^ (fuel + 1) := by
        rw [Nat.div_lt_iff_lt_mul (by omega : 0 < 128)]
        calc n < 128 ^ (fuel + 1 + 1) := h
          _ = 128 ^ (fuel + 1) * 128 := by rw [Nat.pow_succ]
      rw [write_varint_i32_succ, fdiv_natCast, if_neg hcast, ih _ hrec, hmod,
        show write_varint n = (n % 128 + 128) :: write_varint (n / 128) by
          rw [write_varint_eq, if_neg hz]]

/-! ## Rust string ordering

`BTreeMap`/`BTreeSet` iterate keys in the order given by Rust's
`Ord for String`, which is bytewise lexicographic order on the UTF-8
encoding.  UTF-8 preserves code-point order under bytewise comparison, so
this agrees with lexicographic order on the code-point sequences, i.e. with
Mathlib's linear order on `String`.  `charsLtB` is an executable strict
comparison used inside the executable definitions; `strLtB_iff` identifies
it with `<`. -/

def charsLtB : List Char → List Char → Bool
  | _, [] => false
  | [], _ :: _ => true
  | a :: as, b :: bs => if a < b then true else if b < a then false else charsLtB as bs

def strLtB (s₁ s₂ : String) : Bool :=
  charsLtB s₁.data s₂.data

theorem charsLtB_iff (x y : List Char) :
    charsLtB x y = true ↔ List.Lex (· < ·) x y := by
  induction x generalizing y with
  | nil =>
    cases y with
    | nil =>
      constructor
      · intro h; cases h
      · intro h; exact absurd h (List.Lex.not_nil_right _ _)
    | cons b bs =>
      constructor
      · intro _; exact List.Lex.nil
      · intro _; rfl
  | cons a as ih =>
    cases y with
    | nil =>
      constructor
      · intro h; cases h
      · intro h; exact absurd h (List.Lex.not_nil_right _ _)
    | cons b bs =>
      rcases lt_trichotomy a b with h | rfl | h
      · rw [show charsLtB (a :: as) (b :: bs) = true from by
          simp [charsLtB, if_pos h]]
        exact iff_of_true rfl (List.Lex.rel h)
      · rw [show charsLtB (a :: as) (a :: bs) = charsLtB as bs from by
          simp [charsLtB, lt_irrefl]]
        rw [List.Lex.cons_iff]
        exact ih bs
      · rw [show charsLtB (a :: as) (b :: bs) = false from by
          simp [charsLtB, if_neg (lt_asymm h), if_pos h]]
        refine iff_of_false (by simp) ?_
        intro hL
        cases hL with
        | rel hab => exact lt_asymm h hab
        | cons htl => exact lt_irrefl _ h

theorem strLtB_iff (s₁ s₂ : String) : strLtB s₁ s₂ = true ↔ s₁ < s₂ := by
  rw [String.lt_iff_toList_lt]
  exact charsLtB_iff s₁.data s₂.data

theorem strLtB_of_lt {s₁ s₂ : String} (h : s₁ < s₂) : strLtB s₁ s₂ = true :=
  (strLtB_iff s₁ s₂).mpr h

theorem strLtB_of_not_lt {s₁ s₂ : String} (h : ¬ s₁ < s₂) : strLtB s₁ s₂ = false := by
  rcases Bool.eq_false_or_eq_true (strLtB s₁ s₂) with hb | hb
  · exact absurd ((strLtB_iff s₁ s₂).mp hb) h
  · exact hb

/-! ## The input model

A scanned file of the generated-data tree.  `dir` is the list of directory
components of the file's path relative to the walked root, `stem`/`ext` the
two parts of its file name (Rust `file_stem`/`extension` semantics for a
name of the shape `stem.ext` with nonempty stem).  `values` is the result of
parsing the file's content as serde's `TagFile { values: Vec<String> }`:
`none` when the content is invalid JSON or lacks a well-formed `values` key
(only the tag compiler reads file contents; the registry compiler uses paths
alone). -/

structure SFile where
  dir : List String
  stem : String
  ext : String
  values : Option (List String)
deriving DecidableEq

def filename (f : SFile) : String := f.stem ++ "." ++ f.ext

/-- The components of the file's path relative to the walked root. -/
def relComponents (f : SFile) : List String := f.dir ++ [filename f]

/-- Rust `Path::parent`: the path without its final component.  It is `None`
only for an empty path (or a bare root); for a relative path with a single
component it is `Some("")` — the empty path, i.e. `some []` here — not
`None`. -/
def pathParent : List String → Option (List String)
  | [] => none
  | c :: rest => some ((c :: rest).dropLast)

/-! ## Registry compiler (`compile_registries`, src/main.rs lines 75-126) -/

/-- `BTreeSet<String>::insert`: keep the list strictly sorted, ignore an
element that is already present. -/
def insertSet (x : String) : List String → List String
  | [] => [x]
  | y :: ys =>
    if strLtB x y then x :: y :: ys
    else if x = y then y :: ys
    else y :: insertSet x ys

/-- `registries.entry(full_reg).or_default().insert(full_entry)` on the
`BTreeMap<String, BTreeSet<String>>`, keyed in sorted order. -/
def addEntry (reg ent : String) :
    List (String × List String) → List (String × List String)
  | [] => [(reg, insertSet ent [])]
  | (k, s) :: rest =>
    if strLtB reg k then (reg, insertSet ent []) :: (k, s) :: rest
    else if reg = k then (k, insertSet ent s) :: rest
    else (k, s) :: addEntry reg ent rest

/-- The body of the registry scan loop (src/main.rs lines 79-98) for one
walked file.  The walked root (`<work>/generated/data/minecraft`) contains no
`tags` component of its own, so the `path.components().any(|c| c == "tags")`
test on the absolute path is the same test on the relative components. -/
def scanFile (regs : List (String × List String)) (f : SFile) :
    List (String × List String) :=
  if f.ext = "json" then
    if (relComponents f).contains "tags" then regs
    else
      match pathParent (relComponents f) with
      | some parent =>
        let registry_name := String.intercalate "/" parent
        let entry_name := f.stem
        let full_reg := "minecraft:" ++ registry_name
        let full_entry := "minecraft:" ++ entry_name
        addEntry full_reg full_entry regs
      | none => regs
  else regs

def scanRegistries (files : List SFile) : List (String × List String) :=
  files.foldl scanFile []

/-- IDs are assigned by `entries.iter().enumerate()`: the entry at sorted
position `idx` gets ID `idx` (`idx as i32`; non-negative, kept as `Nat`). -/
def idMapOf (entries : List String) : List (String × Nat) :=
  entries.enum.map (fun p => (p.2, p.1))

/-- The registry packet body: `String(registryID) · VarInt(entryCount) ·
repeated{ String(entryID) · 0x00 }`. -/
def registryPacket (reg_id : String) (entries : List String) : List Nat :=
  write_string reg_id ++ write_varint entries.length ++
    (entries.map (fun e => write_string e ++ [0])).flatten

/-- `format!("{}.bin", reg_id.replace(":", "_").replace("/", "_"))`: both
patterns are single characters and the replacement `_` is neither `:` nor
`/`, so the two sequential replacements are one character-wise
substitution. -/
def safeName (reg_id : String) : String :=
  String.mk (reg_id.data.map (fun c => if c = ':' ∨ c = '/' then '_' else c)) ++ ".bin"

structure RegOutput where
  mappings : List (String × List (String × Nat))
  outFiles : List (String × List Nat)
deriving DecidableEq

/-- `compile_registries`: scan all files, then for each registry (in sorted
order) emit its packet to `safeName` and record its entry→ID map.  The
mappings `HashMap` is modelled as the association list in emission order;
its keys are distinct, so association-list lookup is `HashMap::get`. -/
def compile_registries (files : List SFile) : RegOutput :=
  let registries := scanRegistries files
  { mappings := registries.map (fun p => (p.1, idMapOf p.2))
    outFiles := registries.map (fun p => (safeName p.1, registryPacket p.1 p.2)) }

/-! ## Tag compiler (`compile_tags`, src/main.rs lines 128-192) -/

/-- `value.starts_with("#")` — the pattern is the single character `#`. -/
def startsWithHash (s : String) : Bool :=
  match s.data with
  | [] => false
  | c :: _ => c = '#'

/-- The tag-resolution loop (src/main.rs lines 153-164): iterate `values` in
order; a value starting with `#` is skipped, otherwise it is looked up in
the qualifying registry's entry→ID map and its ID appended when found. -/
def resolve_ids (entry_map : List (String × Nat)) (values : List String) : List Nat :=
  values.filterMap (fun value =>
    if startsWithHash value then none else List.lookup value entry_map)

/-- `BTreeMap<String, Vec<i32>>::insert`: sorted keys, overwrite on an
existing key. -/
def insertTagMap (k : String) (v : List Nat) :
    List (String × List Nat) → List (String × List Nat)
  | [] => [(k, v)]
  | (k', v') :: rest =>
    if strLtB k k' then (k, v) :: (k', v') :: rest
    else if k = k' then (k, v) :: rest
    else (k', v') :: insertTagMap k v rest

/-- `tags_packet_data.entry(full_reg).or_default().insert(full_tag, ids)`. -/
def addTag (reg tag : String) (ids : List Nat) :
    List (String × List (String × List Nat)) →
      List (String × List (String × List Nat))
  | [] => [(reg, insertTagMap tag ids [])]
  | (k, ts) :: rest =>
    if strLtB reg k then (reg, insertTagMap tag ids []) :: (k, ts) :: rest
    else if reg = k then (k, insertTagMap tag ids ts) :: rest
    else (k, ts) :: addTag reg tag ids rest

/-- The body of the tag scan loop (src/main.rs lines 132-169) for one walked
file.  `none` models a panic: `parent.components().next().unwrap()` unwraps
`None` when the relative parent path is empty, i.e. when the file sits
directly at the tag root (`f.dir = []`).  `f.values.getD []` is
`serde_json::from_str(..).unwrap_or(TagFile { values: vec![] })`, and the
per-value `registry_mappings.get(&full_reg).and_then(|m| m.get(&value))` is
lookup in the (already known to be present) entry map of `full_reg`. -/
def tagStep (registry_mappings : List (String × List (String × Nat)))
    (acc : List (String × List (String × List Nat))) (f : SFile) :
    Option (List (String × List (String × List Nat))) :=
  if f.ext = "json" then
    match pathParent (relComponents f) with
    | some parent =>
      match parent.head? with
      | none => none
      | some registry_suffix =>
        let full_reg := "minecraft:" ++ registry_suffix
        match List.lookup full_reg registry_mappings with
        | none => some acc
        | some entry_map =>
          let tag_suffix := String.intercalate "/" (f.dir.tail ++ [f.stem])
          let full_tag := "minecraft:" ++ tag_suffix
          let parsed := f.values.getD []
          let ids := resolve_ids entry_map parsed
          some (addTag full_reg full_tag ids acc)
    | none => some acc
  else some acc

/-- The tag scan: process the walked files in order, accumulating the
`BTreeMap<String, BTreeMap<String, Vec<i32>>>`; `none` once any file
panics. -/
def scanTags (registry_mappings : List (String × List (String × Nat)))
    (files : List SFile) : Option (List (String × List (String × List Nat))) :=
  files.foldl (fun acc f => acc.bind (fun a => tagStep registry_mappings a f))
    (some [])

/-- The combined tag packet body (src/main.rs lines 171-188):
`VarInt(registryCount) · repeated{ String(registryName) · VarInt(tagCount) ·
repeated{ String(tagName) · VarInt(idCount) · repeated{ VarInt(id) } } }`. -/
def tagsPacket (data : List (String × List (String × List Nat))) : List Nat :=
  write_varint data.length ++
    (data.map (fun rt =>
      write_string rt.1 ++ write_varint rt.2.length ++
        (rt.2.map (fun ti =>
          write_string ti.1 ++ write_varint ti.2.length ++
            (ti.2.map write_varint).flatten)).flatten)).flatten

/-- `compile_tags`: scan the tag subtree, then serialize the combined
packet (written to `packet_tags.bin`); `none` models the panic. -/
def compile_tags (registry_mappings : List (String × List (String × Nat)))
    (files : List SFile) : Option (List Nat) :=
  (scanTags registry_mappings files).map tagsPacket

/-- The two-phase pipeline of `main` (src/main.rs lines 40-53): registries
first, then tags against the produced mapping. -/
def pipeline (regFiles tagFiles : List SFile) :
    RegOutput × Option (List Nat) :=
  let ro := compile_registries regFiles
  (ro, compile_tags ro.mappings tagFiles)

/-! ### Basic facts about the scan step -/

theorem pathParent_rel (f : SFile) : pathParent (relComponents f) = some f.dir := by
  unfold relComponents pathParent
  cases hd : f.dir ++ [filename f] with
  | nil => exact absurd hd (by simp)
  | cons c rest =>
    show some ((c :: rest).dropLast) = some f.dir
    rw [← hd, List.dropLast_concat]

/-- The registry name derived from a file's path (src/main.rs lines 89-92). -/
def regOf (f : SFile) : String :=
  "minecraft:" ++ String.intercalate "/" f.dir

/-- The entry name derived from a file's name (src/main.rs lines 90-93). -/
def entOf (f : SFile) : String :=
  "minecraft:" ++ f.stem

/-- A file the registry scan records: a `.json` file not under `tags`. -/
def inclReg (f : SFile) : Prop :=
  f.ext = "json" ∧ "tags" ∉ relComponents f

instance (f : SFile) : Decidable (inclReg f) := by
  unfold inclReg
  infer_instance

theorem scanFile_eq (regs : List (String × List String)) (f : SFile) :
    scanFile regs f =
      if inclReg f then addEntry (regOf f) (entOf f) regs else regs := by
  unfold scanFile inclReg regOf entOf
  by_cases hj : f.ext = "json"
  · by_cases ht : "tags" ∈ relComponents f
    · simp [hj, ht]
    · simp [hj, ht, pathParent_rel]
  · simp [hj]

/-! ### Sorted insertion lemmas -/

theorem insertSet_mem (x a : String) (s : List String) :
    a ∈ insertSet x s ↔ a = x ∨ a ∈ s := by
  induction s with
  | nil => simp [insertSet]
  | cons y ys ih =>
    unfold insertSet
    rcases lt_trichotomy x y with h | h | h
    · rw [if_pos (strLtB_of_lt h)]
      simp only [List.mem_cons]
    · subst h
      rw [if_neg (by simp [strLtB_of_not_lt (lt_irrefl x)]), if_pos rfl]
      simp only [List.mem_cons]
      tauto
    · rw [if_neg (by simp [strLtB_of_not_lt (lt_asymm h)]),
        if_neg h.ne']
      simp only [List.mem_cons, ih]
      tauto

theorem insertSet_pairwise (x : String) (s : List String) :
    s.Pairwise (· < ·) → (insertSet x s).Pairwise (· < ·) := by
  induction s with
  | nil => intro _; simp [insertSet]
  | cons y ys ih =>
    intro hs
    rw [List.pairwise_cons] at hs
    obtain ⟨hy, hys⟩ := hs
    unfold insertSet
    rcases lt_trichotomy x y with h | h | h
    · rw [if_pos (strLtB_of_lt h)]
      refine List.Pairwise.cons ?_ (List.Pairwise.cons hy hys)
      intro z hz
      rcases List.mem_cons.mp hz with rfl | hz
      · exact h
      · exact lt_trans h (hy z hz)
    · subst h
      rw [if_neg (by simp [strLtB_of_not_lt (lt_irrefl x)]), if_pos rfl]
      exact List.Pairwise.cons hy hys
    · rw [if_neg (by simp [strLtB_of_not_lt (lt_asymm h)]),
        if_neg h.ne']
      refine List.Pairwise.cons ?_ (ih hys)
      intro z hz
      rcases (insertSet_mem x z ys).mp hz with rfl | hz
      · exact h
      · exact hy z hz

theorem insertSet_ne_nil (x : String) (s : List String) : insertSet x s ≠ [] := by
  cases s with
  | nil => simp [insertSet]
  | cons y ys =>
    unfold insertSet
    split
    · simp
    · split <;> simp

/-! ### Lemmas about `addEntry` -/

/-- An occurrence of entry `e` in registry `r` of the scanned map. -/
def MemEntry (m : List (String × List String)) (r e : String) : Prop :=
  ∃ s, (r, s) ∈ m ∧ e ∈ s

theorem addEntry_keys (r e : String) (m : List (String × List String)) :
    ∀ p ∈ addEntry r e m, p.1 = r ∨ ∃ s, (p.1, s) ∈ m := by
  induction m with
  | nil =>
    intro p hp
    unfold addEntry at hp
    rcases List.mem_singleton.mp hp with rfl
    exact Or.inl rfl
  | cons q rest ih =>
    obtain ⟨k, s⟩ := q
    intro p hp
    unfold addEntry at hp
    split_ifs at hp with h1 h2
    · rcases List.mem_cons.mp hp with rfl | hp
      · exact Or.inl rfl
      · exact Or.inr ⟨(p.2), by rw [← Prod.eta p] at hp; exact hp⟩
    · rcases List.mem_cons.mp hp with rfl | hp
      · exact Or.inr ⟨s, List.mem_cons_self _ _⟩
      · exact Or.inr ⟨p.2, List.mem_cons_of_mem _ (by rw [← Prod.eta p] at hp; exact hp)⟩
    · rcases List.mem_cons.mp hp with rfl | hp
      · exact Or.inr ⟨s, List.mem_cons_self _ _⟩
      · rcases ih p hp with h | ⟨s', hs'⟩
        · exact Or.inl h
        · exact Or.inr ⟨s', List.mem_cons_of_mem _ hs'⟩

theorem addEntry_pairwise (r e : String) (m : List (String × List String)) :
    m.Pairwise (fun p q => p.1 < q.1) →
      (addEntry r e m).Pairwise (fun p q => p.1 < q.1) := by
  induction m with
  | nil => intro _; simp [addEntry]
  | cons q rest ih =>
    obtain ⟨k, s⟩ := q
    intro hm
    rw [List.pairwise_cons] at hm
    obtain ⟨hk, hrest⟩ := hm
    unfold addEntry
    split_ifs with h1 h2
    · have hrk : r < k := (strLtB_iff r k).mp h1
      refine List.Pairwise.cons ?_ (List.Pairwise.cons hk hrest)
      intro q hq
      rcases List.mem_cons.mp hq with rfl | hq
      · exact hrk
      · exact lt_trans hrk (hk q hq)
    · subst h2
      exact List.Pairwise.cons hk hrest
    · have hkr : k < r := by
        rcases lt_trichotomy r k with h | h | h
        · exact absurd (strLtB_of_lt h) (by simp [h1])
        · exact absurd h h2
        · exact h
      refine List.Pairwise.cons ?_ (ih hrest)
      intro q hq
      rcases addEntry_keys r e rest q hq with hq1 | ⟨s', hs'⟩
      · rw [hq1]; exact hkr
      · exact hk (q.1, s') hs'

theorem addEntry_valSorted (r e : String) (m : List (String × List String)) :
    (∀ p ∈ m, p.2.Pairwise (· < ·)) →
      ∀ p ∈ addEntry r e m, p.2.Pairwise (· < ·) := by
  induction m with
  | nil =>
    intro _ p hp
    unfold addEntry at hp
    rcases List.mem_singleton.mp hp with rfl
    exact insertSet_pairwise e [] (by simp)
  | cons q rest ih =>
    obtain ⟨k, s⟩ := q
    intro hm p hp
    unfold addEntry at hp
    split_ifs at hp with h1 h2
    · rcases List.mem_cons.mp hp with rfl | hp
      · exact insertSet_pairwise e [] (by simp)
      · exact hm p hp
    · rcases List.mem_cons.mp hp with rfl | hp
      · exact insertSet_pairwise e s (hm (k, s) (List.mem_cons_self _ _))
      · exact hm p (List.mem_cons_of_mem _ hp)
    · rcases List.mem_cons.mp hp with rfl | hp
      · exact hm (k, s) (List.mem_cons_self _ _)
      · exact ih (fun q hq => hm q (List.mem_cons_of_mem _ hq)) p hp

theorem MemEntry_nil (r e : String) : ¬ MemEntry [] r e := by
  rintro ⟨s, hs, _⟩
  simp at hs

theorem MemEntry_cons (k : String) (v : List String) (l : List (String × List String))
    (r e : String) :
    MemEntry ((k, v) :: l) r e ↔ (r = k ∧ e ∈ v) ∨ MemEntry l r e := by
  unfold MemEntry
  constructor
  · rintro ⟨s, hs, he⟩
    rcases List.mem_cons.mp hs with h | h
    · rw [Prod.mk.injEq] at h
      obtain ⟨rfl, rfl⟩ := h
      exact Or.inl ⟨rfl, he⟩
    · exact Or.inr ⟨s, h, he⟩
  · rintro (⟨rfl, he⟩ | ⟨s, hs, he⟩)
    · exact ⟨v, List.mem_cons_self _ _, he⟩
    · exact ⟨s, List.mem_cons_of_mem _ hs, he⟩

theorem key_cons {α : Type} (k : String) (v : α) (l : List (String × α)) (r : String) :
    (∃ s, (r, s) ∈ (k, v) :: l) ↔ r = k ∨ ∃ s, (r, s) ∈ l := by
  constructor
  · rintro ⟨s, hs⟩
    rcases List.mem_cons.mp hs with h | h
    · rw [Prod.mk.injEq] at h
      exact Or.inl h.1
    · exact Or.inr ⟨s, h⟩
  · rintro (rfl | ⟨s, hs⟩)
    · exact ⟨v, List.mem_cons_self _ _⟩
    · exact ⟨s, List.mem_cons_of_mem _ hs⟩

theorem MemEntry_addEntry (r e r' e' : String) (m : List (String × List String)) :
    MemEntry (addEntry r e m) r' e' ↔ (r' = r ∧ e' = e) ∨ MemEntry m r' e' := by
  induction m with
  | nil =>
    unfold addEntry
    rw [MemEntry_cons]
    have h1 : insertSet e [] = [e] := rfl
    simp [h1, MemEntry_nil]
  | cons q rest ih =>
    obtain ⟨k, s⟩ := q
    unfold addEntry
    split_ifs with h1 h2
    · have he : insertSet e [] = [e] := rfl
      simp only [MemEntry_cons, he, List.mem_singleton] <;> tauto
    · subst h2
      simp only [MemEntry_cons, insertSet_mem] <;> tauto
    · simp only [MemEntry_cons, ih] <;> tauto

theorem key_addEntry (r e r' : String) (m : List (String × List String)) :
    (∃ s, (r', s) ∈ addEntry r e m) ↔ r' = r ∨ ∃ s, (r', s) ∈ m := by
  induction m with
  | nil =>
    unfold addEntry
    rw [key_cons]
  | cons q rest ih =>
    obtain ⟨k, s⟩ := q
    unfold addEntry
    split_ifs with h1 h2
    · simp only [key_cons] <;> tauto
    · subst h2
      simp only [key_cons] <;> tauto
    · simp only [key_cons, ih] <;> tauto

/-! ### The registry scan invariant -/

structure RegInv (m : List (String × List String)) (P : String → String → Prop) : Prop where
  sorted : m.Pairwise (fun p q => p.1 < q.1)
  valSorted : ∀ p ∈ m, p.2.Pairwise (· < ·)
  mem_iff : ∀ r e, MemEntry m r e ↔ P r e
  key_iff : ∀ r, (∃ s, (r, s) ∈ m) ↔ ∃ e, P r e

theorem regInv_congr {m : List (String × List String)} {P Q : String → String → Prop}
    (h : RegInv m P) (hpq : ∀ r e, P r e ↔ Q r e) : RegInv m Q := by
  refine ⟨h.sorted, h.valSorted, ?_, ?_⟩
  · intro r e
    rw [h.mem_iff r e, hpq]
  · intro r
    rw [h.key_iff r]
    constructor
    · rintro ⟨e, he⟩; exact ⟨e, (hpq r e).mp he⟩
    · rintro ⟨e, he⟩; exact ⟨e, (hpq r e).mpr he⟩

theorem RegInv_nil : RegInv [] (fun _ _ => False) := by
  refine ⟨List.Pairwise.nil, by simp, ?_, ?_⟩
  · intro r e
    exact iff_of_false (MemEntry_nil r e) (by simp)
  · intro r
    simp

theorem RegInv_addEntry {m : List (String × List String)} {P : String → String → Prop}
    (h : RegInv m P) (r e : String) :
    RegInv (addEntry r e m) (fun r' e' => (r' = r ∧ e' = e) ∨ P r' e') := by
  refine ⟨addEntry_pairwise r e m h.sorted, addEntry_valSorted r e m h.valSorted, ?_, ?_⟩
  · intro r' e'
    rw [MemEntry_addEntry, h.mem_iff]
  · intro r'
    rw [key_addEntry]
    constructor
    · rintro (rfl | hk)
      · exact ⟨e, Or.inl ⟨rfl, rfl⟩⟩
      · obtain ⟨e', he'⟩ := (h.key_iff r').mp hk
        exact ⟨e', Or.inr he'⟩
    · rintro ⟨e', (⟨rfl, rfl⟩ | he')⟩
      · exact Or.inl rfl
      · exact Or.inr ((h.key_iff r').mpr ⟨e', he'⟩)

/-- Predicate: some file of the walk contributes entry `e` to registry `r`. -/
def contributesReg (files : List SFile) (r e : String) : Prop :=
  ∃ f ∈ files, inclReg f ∧ r = regOf f ∧ e = entOf f

theorem scanRegistries_go (files : List SFile) (m : List (String × List String))
    (P : String → String → Prop) (inv : RegInv m P) :
    RegInv (files.foldl scanFile m) (fun r e => P r e ∨ contributesReg files r e) := by
  induction files generalizing m P with
  | nil => exact regInv_congr inv (by simp [contributesReg])
  | cons f fs ih =>
    rw [List.foldl_cons, scanFile_eq]
    by_cases hf : inclReg f
    · rw [if_pos hf]
      refine regInv_congr (ih _ _ (RegInv_addEntry inv (regOf f) (entOf f))) ?_
      intro r e
      simp only [contributesReg, List.mem_cons]
      constructor
      · rintro (((⟨rfl, rfl⟩ | hP) | hC))
        · exact Or.inr ⟨f, Or.inl rfl, hf, rfl, rfl⟩
        · exact Or.inl hP
        · obtain ⟨g, hg, hgrest⟩ := hC
          exact Or.inr ⟨g, Or.inr hg, hgrest⟩
      · rintro (hP | ⟨g, (rfl | hg), hgi, rfl, rfl⟩)
        · exact Or.inl (Or.inr hP)
        · exact Or.inl (Or.inl ⟨rfl, rfl⟩)
        · exact Or.inr ⟨g, hg, hgi, rfl, rfl⟩
    · rw [if_neg hf]
      refine regInv_congr (ih _ _ inv) ?_
      intro r e
      simp only [contributesReg, List.mem_cons]
      constructor
      · rintro (hP | ⟨g, hg, hgrest⟩)
        · exact Or.inl hP
        · exact Or.inr ⟨g, Or.inr hg, hgrest⟩
      · rintro (hP | ⟨g, (rfl | hg), hgi, rfl, rfl⟩)
        · exact Or.inl hP
        · exact absurd hgi hf
        · exact Or.inr ⟨g, hg, hgi, rfl, rfl⟩

theorem scanRegistries_inv (files : List SFile) :
    RegInv (scanRegistries files) (contributesReg files) := by
  have h := scanRegistries_go files [] (fun _ _ => False) RegInv_nil
  exact regInv_congr h (by intro r e; tauto)

/-! ### Sorted lists are determined by their members -/

theorem sorted_ext {α β : Type} [Preorder β] (key : α → β) :
    ∀ (l₁ l₂ : List α), l₁.Pairwise (fun p q => key p < key q) →
      l₂.Pairwise (fun p q => key p < key q) →
      (∀ x, x ∈ l₁ ↔ x ∈ l₂) → l₁ = l₂ := by
  intro l₁
  induction l₁ with
  | nil =>
    intro l₂ _ _ hm
    cases l₂ with
    | nil => rfl
    | cons q t₂ => exact absurd ((hm q).mpr (List.mem_cons_self _ _)) (by simp)
  | cons p t₁ ih =>
    intro l₂ h₁ h₂ hm
    cases l₂ with
    | nil => exact absurd ((hm p).mp (List.mem_cons_self _ _)) (by simp)
    | cons q t₂ =>
      rw [List.pairwise_cons] at h₁ h₂
      have hpq : p = q := by
        rcases List.mem_cons.mp ((hm p).mp (List.mem_cons_self _ _)) with h | h
        · exact h
        · rcases List.mem_cons.mp ((hm q).mpr (List.mem_cons_self _ _)) with h' | h'
          · exact h'.symm
          · exact absurd (h₂.1 p h) (by
              have := h₁.1 q h'
              exact fun hlt => lt_irrefl (key p) (lt_trans this hlt))
      subst hpq
      have htails : ∀ x, x ∈ t₁ ↔ x ∈ t₂ := by
        intro x
        constructor
        · intro hx
          rcases List.mem_cons.mp ((hm x).mp (List.mem_cons_of_mem _ hx)) with rfl | h
          · exact absurd (h₁.1 x hx) (lt_irrefl (key x))
          · exact h
        · intro hx
          rcases List.mem_cons.mp ((hm x).mpr (List.mem_cons_of_mem _ hx)) with rfl | h
          · exact absurd (h₂.1 x hx) (lt_irrefl (key x))
          · exact h
      rw [ih t₂ h₁.2 h₂.2 htails]

theorem sortedMap_value_unique {α : Type} {l : List (String × α)}
    (hs : l.Pairwise (fun p q => p.1 < q.1)) {r : String} {v v' : α}
    (h : (r, v) ∈ l) (h' : (r, v') ∈ l) : v = v' := by
  induction l with
  | nil => simp at h
  | cons q t ih =>
    rw [List.pairwise_cons] at hs
    rcases List.mem_cons.mp h with rfl | hmem
    · rcases List.mem_cons.mp h' with he | hmem'
      · exact (congrArg Prod.snd he).symm
      · exact absurd (hs.1 _ hmem') (lt_irrefl r)
    · rcases List.mem_cons.mp h' with rfl | hmem'
      · exact absurd (hs.1 _ hmem) (lt_irrefl r)
      · exact ih hs.2 hmem hmem'

theorem MemEntry_def (m : List (String × List String)) (r e : String) :
    MemEntry m r e ↔ ∃ s, (r, s) ∈ m ∧ e ∈ s := Iff.rfl

theorem regInv_mem_mono {m₁ m₂ : List (String × List String)}
    {P₁ P₂ : String → String → Prop} (i₁ : RegInv m₁ P₁) (i₂ : RegInv m₂ P₂)
    (h : ∀ r e, P₁ r e ↔ P₂ r e) : ∀ p, p ∈ m₁ → p ∈ m₂ := by
  rintro ⟨r, s⟩ hm
  have hkey : ∃ e, P₂ r e := by
    obtain ⟨e, he⟩ := (i₁.key_iff r).mp ⟨s, hm⟩
    exact ⟨e, (h r e).mp he⟩
  obtain ⟨s₂, hs₂⟩ := (i₂.key_iff r).mpr hkey
  have hset : s = s₂ := by
    apply sorted_ext (fun x : String => x) s s₂ (i₁.valSorted (r, s) hm)
      (i₂.valSorted (r, s₂) hs₂)
    intro e
    constructor
    · intro he
      have hP : P₂ r e :=
        (h r e).mp ((i₁.mem_iff r e).mp ((MemEntry_def m₁ r e).mpr ⟨s, hm, he⟩))
      obtain ⟨s', hs', he'⟩ := (MemEntry_def m₂ r e).mp ((i₂.mem_iff r e).mpr hP)
      rwa [sortedMap_value_unique i₂.sorted hs₂ hs']
    · intro he
      have hP : P₁ r e :=
        (h r e).mpr ((i₂.mem_iff r e).mp ((MemEntry_def m₂ r e).mpr ⟨s₂, hs₂, he⟩))
      obtain ⟨s', hs', he'⟩ := (MemEntry_def m₁ r e).mp ((i₁.mem_iff r e).mpr hP)
      rwa [sortedMap_value_unique i₁.sorted hm hs']
  rw [hset]
  exact hs₂

theorem scanRegistries_perm {files₁ files₂ : List SFile} (hp : files₁.Perm files₂) :
    scanRegistries files₁ = scanRegistries files₂ := by
  have i₁ := scanRegistries_inv files₁
  have i₂ := scanRegistries_inv files₂
  have hiff : ∀ r e, contributesReg files₁ r e ↔ contributesReg files₂ r e := by
    intro r e
    unfold contributesReg
    constructor
    · rintro ⟨f, hf, hrest⟩
      exact ⟨f, hp.mem_iff.mp hf, hrest⟩
    · rintro ⟨f, hf, hrest⟩
      exact ⟨f, hp.mem_iff.mpr hf, hrest⟩
  apply sorted_ext Prod.fst _ _ i₁.sorted i₂.sorted
  intro p
  exact ⟨fun h => regInv_mem_mono i₁ i₂ hiff p h,
    fun h => regInv_mem_mono i₂ i₁ (fun r e => (hiff r e).symm) p h⟩

theorem compile_registries_perm {files₁ files₂ : List SFile} (hp : files₁.Perm files₂) :
    compile_registries files₁ = compile_registries files₂ := by
  unfold compile_registries
  rw [scanRegistries_perm hp]

/-! ### Rank of an entry in a sorted list -/

theorem sorted_rank {l : List String} : l.Pairwise (· < ·) → ∀ (i : Nat) (e : String),
    l[i]? = some e → l.countP (fun x => decide (x < e)) = i := by
  induction l with
  | nil =>
    intro _ i e h
    simp at h
  | cons y t ih =>
    intro hp i e h
    rw [List.pairwise_cons] at hp
    cases i with
    | zero =>
      rw [List.getElem?_cons_zero, Option.some_inj] at h
      subst h
      have h0 : t.countP (fun x => decide (x < y)) = 0 := by
        rw [List.countP_eq_zero]
        intro x hx
        simp only [decide_eq_true_eq]
        exact fun hlt => lt_irrefl y (lt_trans (hp.1 x hx) hlt)
      rw [List.countP_cons, h0]
      simp only [decide_eq_false (lt_irrefl y)]
      simp
    | succ i =>
      rw [List.getElem?_cons_succ] at h
      have he : e ∈ t := by
        obtain ⟨hlen, hget⟩ := List.getElem?_eq_some.mp h
        rw [← hget]
        exact List.getElem_mem hlen
      have hy : decide (y < e) = true := decide_eq_true (hp.1 e he)
      rw [List.countP_cons, ih hp.2 i e h]
      simp only [hy]
      simp

/-! ### Names derived by the tag compiler -/

/-- The qualifying registry of a tag file: its first path component,
namespaced (src/main.rs lines 139-140). -/
def tregOf (f : SFile) : String :=
  "minecraft:" ++ f.dir.headI

/-- The tag name of a tag file: everything after the registry folder, with
the extension stripped, namespaced (src/main.rs lines 146-147). -/
def ttagOf (f : SFile) : String :=
  "minecraft:" ++ String.intercalate "/" (f.dir.tail ++ [f.stem])

/-- The resolved ID list of a tag file against the registry mappings. -/
def tagIdsOf (mp : List (String × List (String × Nat))) (f : SFile) : List Nat :=
  resolve_ids ((List.lookup (tregOf f) mp).getD []) (f.values.getD [])

/-- A tag file the tag scan records: a `.json` file below a registry folder
whose registry is present in the mappings. -/
def tagIncludedB (mp : List (String × List (String × Nat))) (f : SFile) : Bool :=
  f.ext == "json" && !f.dir.isEmpty && (List.lookup (tregOf f) mp).isSome

/-- The key under which a tag file is recorded. -/
def tagKey (f : SFile) : String × String :=
  (tregOf f, ttagOf f)

theorem tagStep_not_json {mp : List (String × List (String × Nat))}
    {acc : List (String × List (String × List Nat))} {f : SFile}
    (hj : ¬ f.ext = "json") : tagStep mp acc f = some acc := by
  unfold tagStep
  rw [if_neg hj]

theorem tagStep_panic {mp : List (String × List (String × Nat))}
    {acc : List (String × List (String × List Nat))} {f : SFile}
    (hj : f.ext = "json") (hd : f.dir = []) : tagStep mp acc f = none := by
  unfold tagStep
  rw [if_pos hj, pathParent_rel, hd]
  rfl

theorem tagStep_unknown {mp : List (String × List (String × Nat))}
    {acc : List (String × List (String × List Nat))} {f : SFile} {d : String}
    {rest : List String} (hj : f.ext = "json") (hd : f.dir = d :: rest)
    (hu : List.lookup (tregOf f) mp = none) : tagStep mp acc f = some acc := by
  have htr : tregOf f = "minecraft:" ++ d := by
    rw [tregOf, hd]
    rfl
  unfold tagStep
  rw [if_pos hj, pathParent_rel, hd]
  show (match List.lookup ("minecraft:" ++ d) mp with
    | none => some acc
    | some entry_map =>
      some (addTag ("minecraft:" ++ d)
        ("minecraft:" ++ String.intercalate "/" (rest ++ [f.stem]))
        (resolve_ids entry_map (f.values.getD [])) acc)) = some acc
  rw [← htr, hu]

theorem tagStep_found {mp : List (String × List (String × Nat))}
    {acc : List (String × List (String × List Nat))} {f : SFile} {d : String}
    {rest : List String} {em : List (String × Nat)}
    (hj : f.ext = "json") (hd : f.dir = d :: rest)
    (hm : List.lookup (tregOf f) mp = some em) :
    tagStep mp acc f =
      some (addTag (tregOf f) (ttagOf f)
        (resolve_ids em (f.values.getD [])) acc) := by
  have htr : tregOf f = "minecraft:" ++ d := by
    rw [tregOf, hd]
    rfl
  have htt : ttagOf f = "minecraft:" ++ String.intercalate "/" (rest ++ [f.stem]) := by
    rw [ttagOf, hd]
    rfl
  unfold tagStep
  rw [if_pos hj, pathParent_rel, hd]
  show (match List.lookup ("minecraft:" ++ d) mp with
    | none => some acc
    | some entry_map =>
      some (addTag ("minecraft:" ++ d)
        ("minecraft:" ++ String.intercalate "/" (rest ++ [f.stem]))
        (resolve_ids entry_map (f.values.getD [])) acc)) = _
  rw [← htr, ← htt, hm]

theorem tagIdsOf_eq {mp : List (String × List (String × Nat))} {f : SFile}
    {em : List (String × Nat)} (hm : List.lookup (tregOf f) mp = some em) :
    tagIdsOf mp f = resolve_ids em (f.values.getD []) := by
  rw [tagIdsOf, hm]
  rfl

/-! ### Lemmas about `insertTagMap` and `addTag` -/

theorem insertTagMap_keys (k : String) (v : List Nat) (l : List (String × List Nat)) :
    ∀ p ∈ insertTagMap k v l, p.1 = k ∨ ∃ w, (p.1, w) ∈ l := by
  induction l with
  | nil =>
    intro p hp
    rcases List.mem_singleton.mp hp with rfl
    exact Or.inl rfl
  | cons q rest ih =>
    obtain ⟨k', v'⟩ := q
    intro p hp
    unfold insertTagMap at hp
    split_ifs at hp with h1 h2
    · rcases List.mem_cons.mp hp with rfl | hp
      · exact Or.inl rfl
      · exact Or.inr ⟨p.2, by rw [← Prod.eta p] at hp; exact hp⟩
    · rcases List.mem_cons.mp hp with rfl | hp
      · exact Or.inl rfl
      · exact Or.inr ⟨p.2, List.mem_cons_of_mem _ (by rw [← Prod.eta p] at hp; exact hp)⟩
    · rcases List.mem_cons.mp hp with rfl | hp
      · exact Or.inr ⟨v', List.mem_cons_self _ _⟩
      · rcases ih p hp with h | ⟨w, hw⟩
        · exact Or.inl h
        · exact Or.inr ⟨w, List.mem_cons_of_mem _ hw⟩

theorem insertTagMap_pairwise (k : String) (v : List Nat) (l : List (String × List Nat)) :
    l.Pairwise (fun p q => p.1 < q.1) →
      (insertTagMap k v l).Pairwise (fun p q => p.1 < q.1) := by
  induction l with
  | nil => intro _; simp [insertTagMap]
  | cons q rest ih =>
    obtain ⟨k', v'⟩ := q
    intro hl
    rw [List.pairwise_cons] at hl
    obtain ⟨hk', hrest⟩ := hl
    unfold insertTagMap
    split_ifs with h1 h2
    · have hkk : k < k' := (strLtB_iff k k').mp h1
      refine List.Pairwise.cons ?_ (List.Pairwise.cons hk' hrest)
      intro q hq
      rcases List.mem_cons.mp hq with rfl | hq
      · exact hkk
      · exact lt_trans hkk (hk' q hq)
    · subst h2
      exact List.Pairwise.cons hk' hrest
    · have hkk : k' < k := by
        rcases lt_trichotomy k k' with h | h | h
        · exact absurd (strLtB_of_lt h) (by simp [h1])
        · exact absurd h h2
        · exact h
      refine List.Pairwise.cons ?_ (ih hrest)
      intro q hq
      rcases insertTagMap_keys k v rest q hq with hq1 | ⟨w, hw⟩
      · rw [hq1]; exact hkk
      · exact hk' (q.1, w) hw

theorem insertTagMap_self (k : String) (v : List Nat) (l : List (String × List Nat)) :
    (k, v) ∈ insertTagMap k v l := by
  induction l with
  | nil => exact List.mem_singleton.mpr rfl
  | cons q rest ih =>
    obtain ⟨k', v'⟩ := q
    unfold insertTagMap
    split_ifs with h1 h2
    · exact List.mem_cons_self _ _
    · exact List.mem_cons_self _ _
    · exact List.mem_cons_of_mem _ ih

theorem insertTagMap_mem (k : String) (v : List Nat) (l : List (String × List Nat))
    (hl : l.Pairwise (fun p q => p.1 < q.1)) (t : String) (ids : List Nat) :
    (t, ids) ∈ insertTagMap k v l ↔
      (t = k ∧ ids = v) ∨ ((t, ids) ∈ l ∧ t ≠ k) := by
  induction l with
  | nil =>
    unfold insertTagMap
    simp [Prod.ext_iff]
  | cons q rest ih =>
    obtain ⟨k', v'⟩ := q
    rw [List.pairwise_cons] at hl
    obtain ⟨hk', hrest⟩ := hl
    unfold insertTagMap
    split_ifs with h1 h2
    · have hkk : k < k' := (strLtB_iff k k').mp h1
      have f1 : t = k' → t ≠ k := fun ht => ht ▸ (ne_of_gt hkk)
      have f2 : (t, ids) ∈ rest → t ≠ k := fun hm =>
        ne_of_gt (lt_trans hkk (hk' (t, ids) hm))
      simp only [List.mem_cons, Prod.mk.injEq]
      tauto
    · subst h2
      have f2 : (t, ids) ∈ rest → t ≠ k := fun hm => ne_of_gt (hk' (t, ids) hm)
      simp only [List.mem_cons, Prod.mk.injEq]
      tauto
    · have hkk : k' < k := by
        rcases lt_trichotomy k k' with h | h | h
        · exact absurd (strLtB_of_lt h) (by simp [h1])
        · exact absurd h h2
        · exact h
      have f1 : t = k' → t ≠ k := fun ht => ht ▸ (ne_of_lt hkk)
      simp only [List.mem_cons, Prod.mk.injEq, ih hrest]
      tauto

/-- An occurrence of tag `t` with IDs `ids` under registry `r` in the tag
packet data. -/
def MemTag (m : List (String × List (String × List Nat))) (r t : String)
    (ids : List Nat) : Prop :=
  ∃ ts, (r, ts) ∈ m ∧ (t, ids) ∈ ts

theorem MemTag_nil (r t : String) (ids : List Nat) : ¬ MemTag [] r t ids := by
  rintro ⟨ts, hts, _⟩
  simp at hts

theorem MemTag_cons (k : String) (v : List (String × List Nat))
    (l : List (String × List (String × List Nat))) (r t : String) (ids : List Nat) :
    MemTag ((k, v) :: l) r t ids ↔ (r = k ∧ (t, ids) ∈ v) ∨ MemTag l r t ids := by
  unfold MemTag
  constructor
  · rintro ⟨ts, hts, hm⟩
    rcases List.mem_cons.mp hts with h | h
    · rw [Prod.mk.injEq] at h
      obtain ⟨rfl, rfl⟩ := h
      exact Or.inl ⟨rfl, hm⟩
    · exact Or.inr ⟨ts, h, hm⟩
  · rintro (⟨rfl, hm⟩ | ⟨ts, hts, hm⟩)
    · exact ⟨v, List.mem_cons_self _ _, hm⟩
    · exact ⟨ts, List.mem_cons_of_mem _ hts, hm⟩

theorem addTag_keys (r t : String) (ids : List Nat)
    (m : List (String × List (String × List Nat))) :
    ∀ p ∈ addTag r t ids m, p.1 = r ∨ ∃ ts, (p.1, ts) ∈ m := by
  induction m with
  | nil =>
    intro p hp
    rcases List.mem_singleton.mp hp with rfl
    exact Or.inl rfl
  | cons q rest ih =>
    obtain ⟨k, ts⟩ := q
    intro p hp
    unfold addTag at hp
    split_ifs at hp with h1 h2
    · rcases List.mem_cons.mp hp with rfl | hp
      · exact Or.inl rfl
      · exact Or.inr ⟨p.2, by rw [← Prod.eta p] at hp; exact hp⟩
    · rcases List.mem_cons.mp hp with rfl | hp
      · exact Or.inr ⟨ts, List.mem_cons_self _ _⟩
      · exact Or.inr ⟨p.2, List.mem_cons_of_mem _ (by rw [← Prod.eta p] at hp; exact hp)⟩
    · rcases List.mem_cons.mp hp with rfl | hp
      · exact Or.inr ⟨ts, List.mem_cons_self _ _⟩
      · rcases ih p hp with h | ⟨ts', hts'⟩
        · exact Or.inl h
        · exact Or.inr ⟨ts', List.mem_cons_of_mem _ hts'⟩

theorem addTag_pairwise (r t : String) (ids : List Nat)
    (m : List (String × List (String × List Nat))) :
    m.Pairwise (fun p q => p.1 < q.1) →
      (addTag r t ids m).Pairwise (fun p q => p.1 < q.1) := by
  induction m with
  | nil => intro _; simp [addTag]
  | cons q rest ih =>
    obtain ⟨k, ts⟩ := q
    intro hm
    rw [List.pairwise_cons] at hm
    obtain ⟨hk, hrest⟩ := hm
    unfold addTag
    split_ifs with h1 h2
    · have hrk : r < k := (strLtB_iff r k).mp h1
      refine List.Pairwise.cons ?_ (List.Pairwise.cons hk hrest)
      intro q hq
      rcases List.mem_cons.mp hq with rfl | hq
      · exact hrk
      · exact lt_trans hrk (hk q hq)
    · subst h2
      exact List.Pairwise.cons hk hrest
    · have hkr : k < r := by
        rcases lt_trichotomy r k with h | h | h
        · exact absurd (strLtB_of_lt h) (by simp [h1])
        · exact absurd h h2
        · exact h
      refine List.Pairwise.cons ?_ (ih hrest)
      intro q hq
      rcases addTag_keys r t ids rest q hq with hq1 | ⟨ts', hts'⟩
      · rw [hq1]; exact hkr
      · exact hk (q.1, ts') hts'

theorem addTag_valSorted (r t : String) (ids : List Nat)
    (m : List (String × List (String × List Nat))) :
    (∀ p ∈ m, p.2.Pairwise (fun a b => a.1 < b.1)) →
      ∀ p ∈ addTag r t ids m, p.2.Pairwise (fun a b => a.1 < b.1) := by
  induction m with
  | nil =>
    intro _ p hp
    rcases List.mem_singleton.mp hp with rfl
    exact insertTagMap_pairwise t ids [] (by simp)
  | cons q rest ih =>
    obtain ⟨k, ts⟩ := q
    intro hm p hp
    unfold addTag at hp
    split_ifs at hp with h1 h2
    · rcases List.mem_cons.mp hp with rfl | hp
      · exact insertTagMap_pairwise t ids [] (by simp)
      · exact hm p hp
    · rcases List.mem_cons.mp hp with rfl | hp
      · exact insertTagMap_pairwise t ids ts (hm (k, ts) (List.mem_cons_self _ _))
      · exact hm p (List.mem_cons_of_mem _ hp)
    · rcases List.mem_cons.mp hp with rfl | hp
      · exact hm (k, ts) (List.mem_cons_self _ _)
      · exact ih (fun q hq => hm q (List.mem_cons_of_mem _ hq)) p hp

theorem addTag_self (r t : String) (ids : List Nat)
    (m : List (String × List (String × List Nat))) :
    MemTag (addTag r t ids m) r t ids := by
  induction m with
  | nil =>
    exact ⟨insertTagMap t ids [], List.mem_singleton.mpr rfl, insertTagMap_self t ids []⟩
  | cons q rest ih =>
    obtain ⟨k, ts⟩ := q
    unfold addTag
    split_ifs with h1 h2
    · exact ⟨insertTagMap t ids [], List.mem_cons_self _ _, insertTagMap_self t ids []⟩
    · subst h2
      exact ⟨insertTagMap t ids ts, List.mem_cons_self _ _, insertTagMap_self t ids ts⟩
    · exact (MemTag_cons k ts _ r t ids).mpr (Or.inr ih)

theorem MemTag_key {m : List (String × List (String × List Nat))} {r t : String}
    {ids : List Nat} (h : MemTag m r t ids) : ∃ ts, (r, ts) ∈ m := by
  obtain ⟨ts, hts, _⟩ := h
  exact ⟨ts, hts⟩

set_option maxHeartbeats 1000000 in
theorem MemTag_addTag (r t : String) (ids : List Nat)
    (m : List (String × List (String × List Nat)))
    (houter : m.Pairwise (fun p q => p.1 < q.1))
    (hinner : ∀ p ∈ m, p.2.Pairwise (fun a b => a.1 < b.1))
    (r' t' : String) (ids' : List Nat) :
    MemTag (addTag r t ids m) r' t' ids' ↔
      (r' = r ∧ t' = t ∧ ids' = ids) ∨
        (MemTag m r' t' ids' ∧ ¬ (r' = r ∧ t' = t)) := by
  induction m with
  | nil =>
    unfold addTag
    rw [MemTag_cons]
    have he : insertTagMap t ids [] = [(t, ids)] := rfl
    simp only [he, List.mem_singleton, Prod.mk.injEq]
    have hn := MemTag_nil r' t' ids'
    tauto
  | cons q rest ih =>
    obtain ⟨k, ts⟩ := q
    rw [List.pairwise_cons] at houter
    obtain ⟨hk, hrest⟩ := houter
    have hts : ts.Pairwise (fun a b => a.1 < b.1) :=
      hinner (k, ts) (List.mem_cons_self _ _)
    have hinner' : ∀ p ∈ rest, p.2.Pairwise (fun a b => a.1 < b.1) :=
      fun p hp => hinner p (List.mem_cons_of_mem _ hp)
    unfold addTag
    split_ifs with h1 h2
    · have hrk : r < k := (strLtB_iff r k).mp h1
      have he : insertTagMap t ids [] = [(t, ids)] := rfl
      have f1 : r' = k → r' ≠ r := fun h => h ▸ (ne_of_gt hrk)
      have f2 : MemTag rest r' t' ids' → r' ≠ r := by
        intro hm
        obtain ⟨ts', hts'⟩ := MemTag_key hm
        exact ne_of_gt (lt_trans hrk (hk (r', ts') hts'))
      simp only [MemTag_cons, he, List.mem_singleton, Prod.mk.injEq]
      tauto
    · subst h2
      have f2 : MemTag rest r' t' ids' → r' ≠ r := by
        intro hm
        obtain ⟨ts', hts'⟩ := MemTag_key hm
        exact ne_of_gt (hk (r', ts') hts')
      simp only [MemTag_cons, insertTagMap_mem t ids ts hts]
      tauto
    · have hkr : k < r := by
        rcases lt_trichotomy r k with h | h | h
        · exact absurd (strLtB_of_lt h) (by simp [h1])
        · exact absurd h h2
        · exact h
      have f1 : r' = k → r' ≠ r := fun h => h ▸ (ne_of_lt hkr)
      simp only [MemTag_cons, ih hrest hinner']
      tauto

theorem key_addTag (r t : String) (ids : List Nat)
    (m : List (String × List (String × List Nat))) (r' : String) :
    (∃ ts, (r', ts) ∈ addTag r t ids m) ↔ r' = r ∨ ∃ ts, (r', ts) ∈ m := by
  induction m with
  | nil =>
    unfold addTag
    rw [key_cons]
  | cons q rest ih =>
    obtain ⟨k, ts⟩ := q
    unfold addTag
    split_ifs with h1 h2
    · simp only [key_cons] <;> tauto
    · subst h2
      simp only [key_cons] <;> tauto
    · simp only [key_cons, ih] <;> tauto

/-! ### The tag scan invariant -/

structure TagInv (m : List (String × List (String × List Nat)))
    (Q : String → String → List Nat → Prop) : Prop where
  sorted : m.Pairwise (fun p q => p.1 < q.1)
  valSorted : ∀ p ∈ m, p.2.Pairwise (fun a b => a.1 < b.1)
  mem_iff : ∀ r t ids, MemTag m r t ids ↔ Q r t ids
  key_iff : ∀ r, (∃ ts, (r, ts) ∈ m) ↔ ∃ t ids, Q r t ids

theorem tagInv_congr {m : List (String × List (String × List Nat))}
    {Q Q' : String → String → List Nat → Prop} (h : TagInv m Q)
    (hq : ∀ r t ids, Q r t ids ↔ Q' r t ids) : TagInv m Q' := by
  refine ⟨h.sorted, h.valSorted, ?_, ?_⟩
  · intro r t ids
    rw [h.mem_iff r t ids, hq]
  · intro r
    rw [h.key_iff r]
    constructor
    · rintro ⟨t, ids, ht⟩
      exact ⟨t, ids, (hq r t ids).mp ht⟩
    · rintro ⟨t, ids, ht⟩
      exact ⟨t, ids, (hq r t ids).mpr ht⟩

theorem TagInv_nil : TagInv [] (fun _ _ _ => False) := by
  refine ⟨List.Pairwise.nil, by simp, ?_, ?_⟩
  · intro r t ids
    exact iff_of_false (MemTag_nil r t ids) (by simp)
  · intro r
    simp

theorem TagInv_addTag {m : List (String × List (String × List Nat))}
    {Q : String → String → List Nat → Prop} (h : TagInv m Q)
    (r t : String) (ids : List Nat) :
    TagInv (addTag r t ids m)
      (fun r' t' ids' => (r' = r ∧ t' = t ∧ ids' = ids) ∨
        (Q r' t' ids' ∧ ¬ (r' = r ∧ t' = t))) := by
  refine ⟨addTag_pairwise r t ids m h.sorted, addTag_valSorted r t ids m h.valSorted, ?_, ?_⟩
  · intro r' t' ids'
    rw [MemTag_addTag r t ids m h.sorted h.valSorted, h.mem_iff]
  · intro r'
    rw [key_addTag]
    constructor
    · rintro (rfl | hk)
      · exact ⟨t, ids, Or.inl ⟨rfl, rfl, rfl⟩⟩
      · obtain ⟨t', ids', ht'⟩ := (h.key_iff r').mp hk
        by_cases hr : r' = r ∧ t' = t
        · exact ⟨t, ids, Or.inl ⟨hr.1, rfl, rfl⟩⟩
        · exact ⟨t', ids', Or.inr ⟨ht', hr⟩⟩
    · rintro ⟨t', ids', (⟨rfl, _, _⟩ | ⟨hQ, _⟩)⟩
      · exact Or.inl rfl
      · exact Or.inr ((h.key_iff r').mpr ⟨t', ids', hQ⟩)

/-- Predicate: some file of the tag walk contributes tag `(r, t)` with the
resolved list `ids`. -/
def contributesTag (mp : List (String × List (String × Nat))) (files : List SFile)
    (r t : String) (ids : List Nat) : Prop :=
  ∃ f ∈ files, tagIncludedB mp f = true ∧ r = tregOf f ∧ t = ttagOf f ∧
    ids = tagIdsOf mp f

/-- The step function of the tag scan fold. -/
def tagFold (mp : List (String × List (String × Nat)))
    (acc : Option (List (String × List (String × List Nat)))) (f : SFile) :
    Option (List (String × List (String × List Nat))) :=
  acc.bind (fun a => tagStep mp a f)

theorem scanTags_eq_foldl (mp : List (String × List (String × Nat)))
    (files : List SFile) :
    scanTags mp files = files.foldl (tagFold mp) (some []) := rfl

theorem tagFold_none (mp : List (String × List (String × Nat))) (files : List SFile) :
    files.foldl (tagFold mp) none = none := by
  induction files with
  | nil => rfl
  | cons f fs ih =>
    rw [List.foldl_cons]
    exact ih

theorem contributesTag_cons (mp : List (String × List (String × Nat))) (f : SFile)
    (fs : List SFile) (r t : String) (ids : List Nat) :
    contributesTag mp (f :: fs) r t ids ↔
      (tagIncludedB mp f = true ∧ r = tregOf f ∧ t = ttagOf f ∧ ids = tagIdsOf mp f) ∨
        contributesTag mp fs r t ids := by
  unfold contributesTag
  constructor
  · rintro ⟨g, hg, hrest⟩
    rcases List.mem_cons.mp hg with rfl | hg
    · exact Or.inl hrest
    · exact Or.inr ⟨g, hg, hrest⟩
  · rintro (h | ⟨g, hg, hrest⟩)
    · exact ⟨f, List.mem_cons_self _ _, h⟩
    · exact ⟨g, List.mem_cons_of_mem _ hg, hrest⟩

theorem tagIncludedB_true {mp : List (String × List (String × Nat))} {f : SFile}
    {d : String} {rest : List String} {em : List (String × Nat)}
    (hj : f.ext = "json") (hd : f.dir = d :: rest)
    (hl : List.lookup (tregOf f) mp = some em) : tagIncludedB mp f = true := by
  unfold tagIncludedB
  rw [hd, hl]
  simp [hj]

theorem tagIncludedB_false_ext {mp : List (String × List (String × Nat))} {f : SFile}
    (hj : ¬ f.ext = "json") : tagIncludedB mp f = false := by
  unfold tagIncludedB
  simp [hj]

theorem tagIncludedB_false_lookup {mp : List (String × List (String × Nat))} {f : SFile}
    (hl : List.lookup (tregOf f) mp = none) : tagIncludedB mp f = false := by
  unfold tagIncludedB
  rw [hl]
  simp

theorem scanTags_go (mp : List (String × List (String × Nat))) :
    ∀ (files : List SFile),
      (∀ f ∈ files, f.ext = "json" → f.dir ≠ []) →
      ((files.filter (tagIncludedB mp)).map tagKey).Nodup →
      ∀ (m : List (String × List (String × List Nat)))
        (Q : String → String → List Nat → Prop), TagInv m Q →
        (∀ f ∈ files, tagIncludedB mp f = true →
          ∀ ids, ¬ Q (tregOf f) (ttagOf f) ids) →
        ∃ out, files.foldl (tagFold mp) (some m) = some out ∧
          TagInv out (fun r t ids => Q r t ids ∨ contributesTag mp files r t ids) := by
  intro files
  induction files with
  | nil =>
    intro _ _ m Q inv _
    refine ⟨m, rfl, tagInv_congr inv ?_⟩
    intro r t ids
    simp [contributesTag]
  | cons f fs ih =>
    intro hok hnd m Q inv hdisj
    rw [List.foldl_cons]
    have hok' : ∀ g ∈ fs, g.ext = "json" → g.dir ≠ [] :=
      fun g hg => hok g (List.mem_cons_of_mem _ hg)
    by_cases hj : f.ext = "json"
    · cases hd : f.dir with
      | nil => exact absurd hd (hok f (List.mem_cons_self _ _) hj)
      | cons d rest =>
        cases hl : List.lookup (tregOf f) mp with
        | none =>
          have hstep : tagFold mp (some m) f = some m := tagStep_unknown hj hd hl
          rw [hstep]
          have hincl : tagIncludedB mp f = false := tagIncludedB_false_lookup hl
          have hnd' : ((fs.filter (tagIncludedB mp)).map tagKey).Nodup := by
            rwa [List.filter_cons, if_neg (by simp [hincl])] at hnd
          obtain ⟨out, heq, hinv⟩ := ih hok' hnd' m Q inv
            (fun g hg => hdisj g (List.mem_cons_of_mem _ hg))
          refine ⟨out, heq, tagInv_congr hinv ?_⟩
          intro r t ids
          rw [contributesTag_cons]
          simp [hincl]
        | some em =>
          have hstep : tagFold mp (some m) f =
              some (addTag (tregOf f) (ttagOf f) (resolve_ids em (f.values.getD [])) m) :=
            tagStep_found hj hd hl
          rw [hstep, (tagIdsOf_eq hl).symm]
          have hincl : tagIncludedB mp f = true := tagIncludedB_true hj hd hl
          have hfil : (f :: fs).filter (tagIncludedB mp) = f :: fs.filter (tagIncludedB mp) := by
            rw [List.filter_cons, if_pos (by simp [hincl])]
          rw [hfil, List.map_cons, List.nodup_cons] at hnd
          obtain ⟨hknot, hnd'⟩ := hnd
          have inv' : TagInv (addTag (tregOf f) (ttagOf f) (tagIdsOf mp f) m)
              (fun r t ids => Q r t ids ∨
                (r = tregOf f ∧ t = ttagOf f ∧ ids = tagIdsOf mp f)) := by
            refine tagInv_congr (TagInv_addTag inv (tregOf f) (ttagOf f) (tagIdsOf mp f)) ?_
            intro r t ids
            constructor
            · rintro (h | ⟨hQ, _⟩)
              · exact Or.inr h
              · exact Or.inl hQ
            · rintro (hQ | h)
              · by_cases hkey : r = tregOf f ∧ t = ttagOf f
                · exact absurd (hkey.1 ▸ hkey.2 ▸ hQ)
                    (hdisj f (List.mem_cons_self _ _) hincl ids)
                · exact Or.inr ⟨hQ, hkey⟩
              · exact Or.inl h
          have hdisj' : ∀ g ∈ fs, tagIncludedB mp g = true → ∀ ids,
              ¬ (Q (tregOf g) (ttagOf g) ids ∨
                (tregOf g = tregOf f ∧ ttagOf g = ttagOf f ∧ ids = tagIdsOf mp f)) := by
            intro g hg hgincl ids
            rintro (hQ | ⟨h1, h2, _⟩)
            · exact hdisj g (List.mem_cons_of_mem _ hg) hgincl ids hQ
            · apply hknot
              have : tagKey g ∈ (fs.filter (tagIncludedB mp)).map tagKey := by
                exact List.mem_map_of_mem tagKey (List.mem_filter.mpr ⟨hg, hgincl⟩)
              rw [show tagKey f = tagKey g from by rw [tagKey, tagKey, h1, h2]]
              exact this
          obtain ⟨out, heq, hinv⟩ := ih hok' hnd' _ _ inv' hdisj'
          refine ⟨out, heq, tagInv_congr hinv ?_⟩
          intro r t ids
          rw [contributesTag_cons]
          simp only [hincl, true_and]
          tauto
    · have hstep : tagFold mp (some m) f = some m := tagStep_not_json hj
      rw [hstep]
      have hincl : tagIncludedB mp f = false := tagIncludedB_false_ext hj
      have hnd' : ((fs.filter (tagIncludedB mp)).map tagKey).Nodup := by
        rwa [List.filter_cons, if_neg (by simp [hincl])] at hnd
      obtain ⟨out, heq, hinv⟩ := ih hok' hnd' m Q inv
        (fun g hg => hdisj g (List.mem_cons_of_mem _ hg))
      refine ⟨out, heq, tagInv_congr hinv ?_⟩
      intro r t ids
      rw [contributesTag_cons]
      simp [hincl]

theorem MemTag_def (m : List (String × List (String × List Nat))) (r t : String)
    (ids : List Nat) : MemTag m r t ids ↔ ∃ ts, (r, ts) ∈ m ∧ (t, ids) ∈ ts := Iff.rfl

theorem scanTags_inv (mp : List (String × List (String × Nat))) (files : List SFile)
    (hok : ∀ f ∈ files, f.ext = "json" → f.dir ≠ [])
    (hnd : ((files.filter (tagIncludedB mp)).map tagKey).Nodup) :
    ∃ out, scanTags mp files = some out ∧ TagInv out (contributesTag mp files) := by
  obtain ⟨out, heq, hinv⟩ := scanTags_go mp files hok hnd []
    (fun _ _ _ => False) TagInv_nil (by simp)
  rw [scanTags_eq_foldl]
  refine ⟨out, heq, tagInv_congr hinv ?_⟩
  intro r t ids
  tauto

theorem scanTags_none (mp : List (String × List (String × Nat))) :
    ∀ (files : List SFile), (∃ f ∈ files, f.ext = "json" ∧ f.dir = []) →
      ∀ acc, files.foldl (tagFold mp) acc = none := by
  intro files
  induction files with
  | nil =>
    rintro ⟨f, hf, _⟩ acc
    simp at hf
  | cons f fs ih =>
    rintro ⟨g, hg, hgj, hgd⟩ acc
    rw [List.foldl_cons]
    rcases List.mem_cons.mp hg with rfl | hg
    · have hstep : tagFold mp acc g = none := by
        cases acc with
        | none => rfl
        | some m => exact tagStep_panic hgj hgd
      rw [hstep]
      exact tagFold_none mp fs
    · exact ih ⟨g, hg, hgj, hgd⟩ _

theorem scanTags_some (mp : List (String × List (String × Nat))) :
    ∀ (files : List SFile), (∀ f ∈ files, f.ext = "json" → f.dir ≠ []) →
      ∀ m, ∃ out, files.foldl (tagFold mp) (some m) = some out := by
  intro files
  induction files with
  | nil => exact fun _ m => ⟨m, rfl⟩
  | cons f fs ih =>
    intro hok m
    rw [List.foldl_cons]
    have hstep : ∃ m', tagFold mp (some m) f = some m' := by
      by_cases hj : f.ext = "json"
      · cases hd : f.dir with
        | nil => exact absurd hd (hok f (List.mem_cons_self _ _) hj)
        | cons d rest =>
          cases hl : List.lookup (tregOf f) mp with
          | none => exact ⟨m, tagStep_unknown hj hd hl⟩
          | some em => exact ⟨_, tagStep_found hj hd hl⟩
      · exact ⟨m, tagStep_not_json hj⟩
    obtain ⟨m', hm'⟩ := hstep
    rw [hm']
    exact ih (fun g hg => hok g (List.mem_cons_of_mem _ hg)) m'

theorem tagStep_result {mp : List (String × List (String × Nat))}
    {m m' : List (String × List (String × List Nat))} {f : SFile}
    (h : tagStep mp m f = some m') :
    m' = m ∨ ∃ em, List.lookup (tregOf f) mp = some em ∧
      m' = addTag (tregOf f) (ttagOf f) (resolve_ids em (f.values.getD [])) m := by
  by_cases hj : f.ext = "json"
  · cases hd : f.dir with
    | nil =>
      rw [tagStep_panic hj hd] at h
      exact absurd h (by simp)
    | cons d rest =>
      cases hl : List.lookup (tregOf f) mp with
      | none =>
        rw [tagStep_unknown hj hd hl, Option.some_inj] at h
        exact Or.inl h.symm
      | some em =>
        rw [tagStep_found hj hd hl, Option.some_inj] at h
        exact Or.inr ⟨em, rfl, h.symm⟩
  · rw [tagStep_not_json hj, Option.some_inj] at h
    exact Or.inl h.symm

theorem scanTags_sorted (mp : List (String × List (String × Nat))) :
    ∀ (files : List SFile) (m out : List (String × List (String × List Nat))),
      m.Pairwise (fun p q => p.1 < q.1) →
      (∀ p ∈ m, p.2.Pairwise (fun a b => a.1 < b.1)) →
      files.foldl (tagFold mp) (some m) = some out →
      out.Pairwise (fun p q => p.1 < q.1) ∧
        ∀ p ∈ out, p.2.Pairwise (fun a b => a.1 < b.1) := by
  intro files
  induction files with
  | nil =>
    intro m out h1 h2 heq
    rw [List.foldl_nil, Option.some_inj] at heq
    exact heq ▸ ⟨h1, h2⟩
  | cons f fs ih =>
    intro m out h1 h2 heq
    rw [List.foldl_cons] at heq
    cases hstep : tagStep mp m f with
    | none =>
      rw [show tagFold mp (some m) f = none from hstep, tagFold_none] at heq
      exact absurd heq (by simp)
    | some m' =>
      rw [show tagFold mp (some m) f = some m' from hstep] at heq
      rcases tagStep_result hstep with rfl | ⟨em, _, rfl⟩
      · exact ih _ out h1 h2 heq
      · exact ih _ out (addTag_pairwise _ _ _ m h1) (addTag_valSorted _ _ _ m h2) heq

theorem scanTags_keys_known (mp : List (String × List (String × Nat))) :
    ∀ (files : List SFile) (m out : List (String × List (String × List Nat))),
      (∀ p ∈ m, (List.lookup p.1 mp).isSome) →
      files.foldl (tagFold mp) (some m) = some out →
      ∀ p ∈ out, (List.lookup p.1 mp).isSome := by
  intro files
  induction files with
  | nil =>
    intro m out h heq
    rw [List.foldl_nil, Option.some_inj] at heq
    exact heq ▸ h
  | cons f fs ih =>
    intro m out h heq
    rw [List.foldl_cons] at heq
    cases hstep : tagStep mp m f with
    | none =>
      rw [show tagFold mp (some m) f = none from hstep, tagFold_none] at heq
      exact absurd heq (by simp)
    | some m' =>
      rw [show tagFold mp (some m) f = some m' from hstep] at heq
      rcases tagStep_result hstep with rfl | ⟨em, hl, rfl⟩
      · exact ih _ out h heq
      · refine ih _ out ?_ heq
        intro p hp
        rcases addTag_keys _ _ _ m p hp with hp1 | ⟨ts, hts⟩
        · rw [hp1, hl]
          rfl
        · exact h (p.1, ts) hts

theorem tagInv_mem_mono {m₁ m₂ : List (String × List (String × List Nat))}
    {Q₁ Q₂ : String → String → List Nat → Prop}
    (i₁ : TagInv m₁ Q₁) (i₂ : TagInv m₂ Q₂)
    (h : ∀ r t ids, Q₁ r t ids ↔ Q₂ r t ids) : ∀ p, p ∈ m₁ → p ∈ m₂ := by
  rintro ⟨r, ts⟩ hm
  have hkey : ∃ t ids, Q₂ r t ids := by
    obtain ⟨t, ids, hQ⟩ := (i₁.key_iff r).mp ⟨ts, hm⟩
    exact ⟨t, ids, (h r t ids).mp hQ⟩
  obtain ⟨ts₂, hts₂⟩ := (i₂.key_iff r).mpr hkey
  have hset : ts = ts₂ := by
    apply sorted_ext Prod.fst ts ts₂ (i₁.valSorted (r, ts) hm)
      (i₂.valSorted (r, ts₂) hts₂)
    rintro ⟨t, ids⟩
    constructor
    · intro hmem
      have hQ : Q₂ r t ids :=
        (h r t ids).mp ((i₁.mem_iff r t ids).mp ((MemTag_def m₁ r t ids).mpr ⟨ts, hm, hmem⟩))
      obtain ⟨ts', hts', hmem'⟩ := (MemTag_def m₂ r t ids).mp ((i₂.mem_iff r t ids).mpr hQ)
      rwa [sortedMap_value_unique i₂.sorted hts₂ hts']
    · intro hmem
      have hQ : Q₁ r t ids :=
        (h r t ids).mpr ((i₂.mem_iff r t ids).mp ((MemTag_def m₂ r t ids).mpr ⟨ts₂, hts₂, hmem⟩))
      obtain ⟨ts', hts', hmem'⟩ := (MemTag_def m₁ r t ids).mp ((i₁.mem_iff r t ids).mpr hQ)
      rwa [sortedMap_value_unique i₁.sorted hm hts']
  rw [hset]
  exact hts₂

theorem scanTags_perm {mp : List (String × List (String × Nat))}
    {files₁ files₂ : List SFile} (hp : files₁.Perm files₂)
    (hnd : ((files₁.filter (tagIncludedB mp)).map tagKey).Nodup) :
    scanTags mp files₁ = scanTags mp files₂ := by
  by_cases hbad : ∃ f ∈ files₁, f.ext = "json" ∧ f.dir = []
  · obtain ⟨f, hf, hfj, hfd⟩ := hbad
    rw [scanTags_eq_foldl, scanTags_eq_foldl,
      scanTags_none mp files₁ ⟨f, hf, hfj, hfd⟩ _,
      scanTags_none mp files₂ ⟨f, hp.mem_iff.mp hf, hfj, hfd⟩ _]
  · have hok₁ : ∀ f ∈ files₁, f.ext = "json" → f.dir ≠ [] := by
      intro f hf hj hd
      exact hbad ⟨f, hf, hj, hd⟩
    have hok₂ : ∀ f ∈ files₂, f.ext = "json" → f.dir ≠ [] := by
      intro f hf hj hd
      exact hbad ⟨f, hp.mem_iff.mpr hf, hj, hd⟩
    have hnd₂ : ((files₂.filter (tagIncludedB mp)).map tagKey).Nodup :=
      (((hp.filter (tagIncludedB mp)).map tagKey).nodup_iff).mp hnd
    obtain ⟨out₁, heq₁, hinv₁⟩ := scanTags_inv mp files₁ hok₁ hnd
    obtain ⟨out₂, heq₂, hinv₂⟩ := scanTags_inv mp files₂ hok₂ hnd₂
    have hiff : ∀ r t ids, contributesTag mp files₁ r t ids ↔
        contributesTag mp files₂ r t ids := by
      intro r t ids
      unfold contributesTag
      constructor
      · rintro ⟨f, hf, hrest⟩
        exact ⟨f, hp.mem_iff.mp hf, hrest⟩
      · rintro ⟨f, hf, hrest⟩
        exact ⟨f, hp.mem_iff.mpr hf, hrest⟩
    have : out₁ = out₂ := by
      apply sorted_ext Prod.fst _ _ hinv₁.sorted hinv₂.sorted
      intro p
      exact ⟨fun h => tagInv_mem_mono hinv₁ hinv₂ hiff p h,
        fun h => tagInv_mem_mono hinv₂ hinv₁ (fun r t ids => (hiff r t ids).symm) p h⟩
    rw [heq₁, heq₂, this]

/-! ## Concrete example inputs (spec section 8) -/

def fallFile : SFile := ⟨["damage_type"], "fall", "json", none⟩

def fireFile : SFile := ⟨["damage_type"], "fire", "json", none⟩

def armorTagFile : SFile := ⟨["damage_type"], "bypasses_armor", "json", some ["minecraft:fall"]⟩

def dmgMap : List (String × Nat) := [("minecraft:fall", 0), ("minecraft:fire", 1)]

def dmgMappings : List (String × List (String × Nat)) := [("minecraft:damage_type", dmgMap)]

/-! ## The claims -/

/-- C1, counterexample to the stated length formula: the encoder emits one
byte for the value `0` (the loop body always pushes at least one byte),
while `ceil(bits/7)` with `bits = Nat.size 0 = 0` is `0`. -/
theorem varint_length_formula_fails_at_zero :
    (write_varint 0).length ≠ (Nat.size 0 + 6) / 7 := by
  rw [Nat.size_zero]
  decide

/-- C1 (amended): for every `x` in `[0, 2^31-1]`, decoding the bytes
produced by `write_varint` yields `x` again, and the encoded length is
`max 1 (ceil (bits / 7))` bytes where `bits` is the bit length of `x` —
the claimed `ceil(bits/7)` with the `max 1` correction forced by `x = 0`. -/
theorem varint_round_trip (x : Nat) (hx : x < 2 ^ 31) :
    decode_varint (write_varint x) = some x ∧
      (write_varint x).length = max 1 ((Nat.size x + 6) / 7) :=
  ⟨decode_write_varint x, write_varint_length x⟩

theorem varint_round_trip_witness :
    300 < 2 ^ 31 ∧
      (decode_varint (write_varint 300) = some 300 ∧
        (write_varint 300).length = max 1 ((Nat.size 300 + 6) / 7)) :=
  ⟨by decide, varint_round_trip 300 (by decide)⟩

/-- C10: on every non-negative `i32` the `write_varint` loop terminates
within 5 iterations, its bytes are those of the `Nat` encoder, and at most 5
bytes are pushed; on every negative `i32` the arithmetic right shift keeps
the value negative, the loop guard `value == 0` never holds, and the loop
runs forever (no fuel suffices). -/
theorem write_varint_terminates :
    (∀ v : Int, 0 ≤ v → v < 2 ^ 31 →
      write_varint_i32 5 v = some (write_varint v.toNat) ∧
        (write_varint v.toNat).length ≤ 5) ∧
    (∀ v : Int, v < 0 → ∀ fuel, write_varint_i32 fuel v = none) := by
  constructor
  · intro v h0 hlt
    obtain ⟨n, rfl⟩ : ∃ n : Nat, v = (n : Int) := ⟨v.toNat, (Int.toNat_of_nonneg h0).symm⟩
    have hn : n < 2 ^ 31 := by exact_mod_cast hlt
    have htn : ((n : Int)).toNat = n := by omega
    rw [htn]
    constructor
    · exact write_varint_i32_ofNat 4 n (lt_of_lt_of_le hn (by norm_num))
    · exact write_varint_le_five hn
  · intro v hneg fuel
    obtain ⟨m, rfl⟩ := Int.eq_negSucc_of_lt_zero hneg
    exact write_varint_i32_negSucc fuel m

theorem write_varint_terminates_witness :
    (write_varint_i32 5 (5 : Int) = some (write_varint (5 : Int).toNat) ∧
      (write_varint (5 : Int).toNat).length ≤ 5) ∧
    write_varint_i32 3 (-7) = none :=
  ⟨write_varint_terminates.1 5 (by decide) (by decide),
    write_varint_terminates.2 (-7) (by decide) 3⟩

/-- C4: the resolved ID list of a tag file is the in-order image of the
`values` list with `#`-prefixed and unresolvable values dropped; every
resolved ID comes from the registry's entry→ID map; and on the spec's
example the result is exactly `[0]`. -/
theorem tag_resolution :
    (∀ (em : List (String × Nat)) (values : List String),
        resolve_ids em values =
          (values.filter
            (fun v => !startsWithHash v && (List.lookup v em).isSome)).map
              (fun v => (List.lookup v em).getD 0)) ∧
    (∀ (em : List (String × Nat)) (values : List String) (i : Nat),
        i ∈ resolve_ids em values → ∃ e, List.lookup e em = some i) ∧
    resolve_ids dmgMap ["minecraft:fall", "#minecraft:is_burning", "minecraft:unknown"] =
      [0] := by
  refine ⟨?_, ?_, by decide⟩
  · intro em values
    induction values with
    | nil => rfl
    | cons v vs ih =>
      unfold resolve_ids at ih ⊢
      by_cases hs : startsWithHash v
      · simp [List.filterMap_cons, List.filter_cons, hs, ih]
      · cases hl : List.lookup v em with
        | none => simp [List.filterMap_cons, List.filter_cons, hs, hl, ih]
        | some i => simp [List.filterMap_cons, List.filter_cons, hs, hl, ih]
  · intro em values i h
    unfold resolve_ids at h
    obtain ⟨v, hv, hf⟩ := List.mem_filterMap.mp h
    by_cases hs : startsWithHash v
    · rw [if_pos hs] at hf
      exact absurd hf (by simp)
    · rw [if_neg hs] at hf
      exact ⟨v, hf⟩

theorem tag_resolution_witness :
    ∃ e, List.lookup e dmgMap = some 0 :=
  tag_resolution.2.1 dmgMap ["minecraft:fall"] 0 (by decide)

theorem compile_registries_mappings (files : List SFile) :
    (compile_registries files).mappings =
      (scanRegistries files).map (fun p => (p.1, idMapOf p.2)) := rfl

theorem idMapOf_fst (es : List String) : (idMapOf es).map Prod.fst = es := by
  unfold idMapOf
  rw [List.map_map]
  exact List.enum_map_snd es

theorem idMapOf_snd (es : List String) :
    (idMapOf es).map Prod.snd = List.range es.length := by
  unfold idMapOf
  rw [List.map_map]
  exact List.enum_map_fst es

theorem idMapOf_length (es : List String) : (idMapOf es).length = es.length := by
  unfold idMapOf
  rw [List.length_map, List.enum_length]

theorem idMapOf_mem {es : List String} {e : String} {i : Nat}
    (h : (e, i) ∈ idMapOf es) : es[i]? = some e := by
  unfold idMapOf at h
  obtain ⟨q, hq, hqe⟩ := List.mem_map.mp h
  rw [Prod.mk.injEq] at hqe
  obtain ⟨h2, h1⟩ := hqe
  have : q = (i, e) := by
    rw [← Prod.eta q, h1, h2]
  rw [this] at hq
  exact List.mem_enum_iff_getElem?.mp hq

/-- C2: in every registry map emitted by `compile_registries`, the ID of an
entry is the entry's 0-indexed rank in lexicographic order among the
registry's entries, and the IDs are exactly `0, 1, ..., N-1` in order (so
they are pairwise distinct and cover `[0, N)` with no gaps). -/
theorem registry_ids_are_sorted_ranks {files : List SFile} {r : String}
    {em : List (String × Nat)}
    (h : (r, em) ∈ (compile_registries files).mappings) :
    em.map Prod.snd = List.range em.length ∧
      ∀ e i, (e, i) ∈ em →
        (em.map Prod.fst).countP (fun x => decide (x < e)) = i := by
  rw [compile_registries_mappings] at h
  obtain ⟨p, hp, hpe⟩ := List.mem_map.mp h
  obtain ⟨r', es⟩ := p
  rw [Prod.mk.injEq] at hpe
  obtain ⟨rfl, rfl⟩ := hpe
  have hsorted : es.Pairwise (· < ·) :=
    (scanRegistries_inv files).valSorted (r', es) hp
  constructor
  · rw [idMapOf_snd, idMapOf_length]
  · intro e i hei
    rw [idMapOf_fst]
    exact sorted_rank hsorted i e (idMapOf_mem hei)

theorem registry_ids_witness :
    dmgMap.map Prod.snd = List.range dmgMap.length ∧
      ∀ e i, (e, i) ∈ dmgMap →
        (dmgMap.map Prod.fst).countP (fun x => decide (x < e)) = i :=
  @registry_ids_are_sorted_ranks [fallFile, fireFile] "minecraft:damage_type" dmgMap
    (by decide)

/-- C3: entries of each registry of the registry scan are in strictly
increasing lexicographic order (the registry packet emits them in this list
order); in the tag scan's output the registries are in strictly increasing
lexicographic order of registry name and the tags of each registry in
strictly increasing lexicographic order of tag name (the combined tag packet
emits both in this list order). -/
theorem emitted_lists_sorted :
    (∀ (files : List SFile) (r : String) (es : List String),
        (r, es) ∈ scanRegistries files → es.Chain' (· < ·)) ∧
    (∀ (mp : List (String × List (String × Nat))) (files : List SFile)
        (out : List (String × List (String × List Nat))),
        scanTags mp files = some out →
        out.Chain' (fun p q => p.1 < q.1) ∧
          ∀ p ∈ out, p.2.Chain' (fun a b => a.1 < b.1)) := by
  constructor
  · intro files r es h
    exact ((scanRegistries_inv files).valSorted (r, es) h).chain'
  · intro mp files out h
    rw [scanTags_eq_foldl] at h
    obtain ⟨h1, h2⟩ := scanTags_sorted mp files [] out List.Pairwise.nil (by simp) h
    exact ⟨h1.chain', fun p hp => (h2 p hp).chain'⟩

theorem emitted_lists_sorted_witness :
    List.Chain' (· < ·) ["minecraft:fall", "minecraft:fire"] ∧
      ([("minecraft:damage_type", [("minecraft:bypasses_armor", [(0 : Nat)])])].Chain'
        (fun p q => p.1 < q.1) ∧
        ∀ p ∈ [("minecraft:damage_type", [("minecraft:bypasses_armor", [(0 : Nat)])])],
          p.2.Chain' (fun a b => a.1 < b.1)) :=
  ⟨emitted_lists_sorted.1 [fallFile, fireFile] "minecraft:damage_type"
      ["minecraft:fall", "minecraft:fire"] (by decide),
    emitted_lists_sorted.2 dmgMappings [armorTagFile]
      [("minecraft:damage_type", [("minecraft:bypasses_armor", [0])])] (by decide)⟩

/-- C5: the pipeline is deterministic.  Its output depends only on the set
of files found by each traversal, not on enumeration order (running it twice
on the same tree is the special case of the identity permutation); the
registry tree may even contain duplicate paths, while for the tag tree the
distinct recorded files must carry distinct `(registry, tag)` keys — which
holds for any filesystem tree, where relative paths are distinct and path
components contain no separator. -/
theorem pipeline_deterministic {rf₁ rf₂ tf₁ tf₂ : List SFile}
    (hr : rf₁.Perm rf₂) (ht : tf₁.Perm tf₂)
    (hnd : ((tf₁.filter
        (tagIncludedB (compile_registries rf₁).mappings)).map tagKey).Nodup) :
    pipeline rf₁ tf₁ = pipeline rf₂ tf₂ := by
  have hreg : compile_registries rf₁ = compile_registries rf₂ :=
    compile_registries_perm hr
  simp only [pipeline, compile_tags]
  rw [← hreg, scanTags_perm ht hnd]

theorem pipeline_deterministic_witness :
    pipeline [fireFile, fallFile] [armorTagFile] =
      pipeline [fallFile, fireFile] [armorTagFile] :=
  pipeline_deterministic (List.Perm.swap fallFile fireFile [])
    (List.Perm.refl [armorTagFile]) (by decide)

/-- C6: evaluation of `compile_registries` on a tree whose only JSON file
sits directly at the tree root.  The file is NOT skipped: Rust's
`Path::parent` returns `Some("")` (not `None`) for a one-component relative
path, so the guard at src/main.rs line 88 always takes the `Some` branch and
the file is recorded as entry `minecraft:orphan` of a registry named
`minecraft:` (empty path part), emitting the file `minecraft_.bin` —
contradicting the claimed skip. -/
theorem root_file_not_skipped :
    (compile_registries [⟨[], "orphan", "json", none⟩]).mappings =
        [("minecraft:", [("minecraft:orphan", 0)])] ∧
      (compile_registries [⟨[], "orphan", "json", none⟩]).outFiles.map Prod.fst =
        ["minecraft_.bin"] := by
  constructor
  · decide
  · decide

/-- C7: a tag file whose first path component names a registry absent from
the mappings is skipped by the step function (the accumulator is returned
unchanged), and every registry key of the tag scan's output has a present
mapping — an absent registry never appears as a key of the combined tag
output. -/
theorem unknown_registry_contributes_nothing :
    (∀ (mp : List (String × List (String × Nat)))
        (acc : List (String × List (String × List Nat))) (f : SFile)
        (d : String) (rest : List String),
        f.ext = "json" → f.dir = d :: rest →
        List.lookup (tregOf f) mp = none →
        tagStep mp acc f = some acc) ∧
    (∀ (mp : List (String × List (String × Nat))) (files : List SFile)
        (out : List (String × List (String × List Nat))),
        scanTags mp files = some out →
        ∀ r ts, (r, ts) ∈ out → (List.lookup r mp).isSome) := by
  constructor
  · intro mp acc f d rest hj hd hu
    exact tagStep_unknown hj hd hu
  · intro mp files out h r ts hmem
    rw [scanTags_eq_foldl] at h
    exact scanTags_keys_known mp files [] out (by simp) h (r, ts) hmem

theorem unknown_registry_witness :
    tagStep [] [] armorTagFile = some [] ∧
      (List.lookup "minecraft:damage_type" dmgMappings).isSome :=
  ⟨unknown_registry_contributes_nothing.1 [] [] armorTagFile "damage_type" []
      rfl rfl (by decide),
    unknown_registry_contributes_nothing.2 dmgMappings [armorTagFile]
      [("minecraft:damage_type", [("minecraft:bypasses_armor", [0])])] (by decide)
      "minecraft:damage_type" [("minecraft:bypasses_armor", [0])] (by decide)⟩

/-- C8: a tag file of a known registry whose content is invalid JSON or
lacks a well-formed `values` key (the serde result is `none`, defaulted to
an empty list) is still recorded under its registry and tag name with an
empty ID list, and the scan continues (the step returns `some`, not a
panic or an abort). -/
theorem malformed_tag_recorded_empty {mp : List (String × List (String × Nat))}
    {acc : List (String × List (String × List Nat))} {f : SFile} {d : String}
    {rest : List String} {em : List (String × Nat)}
    (hj : f.ext = "json") (hd : f.dir = d :: rest)
    (hm : List.lookup (tregOf f) mp = some em) (hv : f.values = none) :
    tagStep mp acc f = some (addTag (tregOf f) (ttagOf f) [] acc) ∧
      MemTag (addTag (tregOf f) (ttagOf f) [] acc) (tregOf f) (ttagOf f) [] := by
  constructor
  · have hstep : tagStep mp acc f =
        some (addTag (tregOf f) (ttagOf f) (resolve_ids em (f.values.getD [])) acc) :=
      tagStep_found hj hd hm
    rw [hv] at hstep
    exact hstep
  · exact addTag_self _ _ _ acc

theorem malformed_tag_witness :
    tagStep dmgMappings [] ⟨["damage_type"], "broken", "json", none⟩ =
        some (addTag (tregOf ⟨["damage_type"], "broken", "json", none⟩)
          (ttagOf ⟨["damage_type"], "broken", "json", none⟩) [] []) ∧
      MemTag (addTag (tregOf ⟨["damage_type"], "broken", "json", none⟩)
          (ttagOf ⟨["damage_type"], "broken", "json", none⟩) [] [])
        (tregOf ⟨["damage_type"], "broken", "json", none⟩)
        (ttagOf ⟨["damage_type"], "broken", "json", none⟩) [] :=
  @malformed_tag_recorded_empty dmgMappings [] ⟨["damage_type"], "broken", "json", none⟩
    "damage_type" [] dmgMap rfl rfl (by decide) rfl

/-- C9: the tag scan completes normally only when every JSON file of the
walked tag subtree lies inside a registry directory: any JSON file directly
at the tag root has an empty relative parent path, `components().next()`
yields nothing, the `unwrap` panics (modelled as `none`), and conversely
with no such file the scan produces a result. -/
theorem tag_root_file_panics :
    (∀ (mp : List (String × List (String × Nat))) (files : List SFile),
        (∃ f ∈ files, f.ext = "json" ∧ f.dir = []) →
        scanTags mp files = none) ∧
    (∀ (mp : List (String × List (String × Nat))) (files : List SFile),
        (∀ f ∈ files, f.ext = "json" → f.dir ≠ []) →
        ∃ out, scanTags mp files = some out) := by
  constructor
  · intro mp files h
    rw [scanTags_eq_foldl]
    exact scanTags_none mp files h _
  · intro mp files h
    rw [scanTags_eq_foldl]
    exact scanTags_some mp files h []

theorem tag_root_file_panics_witness :
    scanTags [] [⟨[], "orphan", "json", none⟩] = none ∧
      ∃ out, scanTags dmgMappings [armorTagFile] = some out :=
  ⟨tag_root_file_panics.1 [] [⟨[], "orphan", "json", none⟩]
      ⟨⟨[], "orphan", "json", none⟩, List.mem_singleton.mpr rfl, rfl, rfl⟩,
    tag_root_file_panics.2 dmgMappings [armorTagFile] (by decide)⟩
